import Mathlib

/-!
# Verification of the `rmt` random-matrix-theory library

Shallow embedding of `src/src/lib.rs`.  The density formulas and the GOE
sampler use `ℝ` (the `f64` arithmetic of the source is idealised as exact
real arithmetic, since those functions involve `sqrt` and `π`).  The
spectral-statistics functions (`level_spacing_ratios`, `mean_spacing_ratio`,
`empirical_spectral_density`) use only field operations, comparisons and
`floor`, all of which are closed over the rationals, so they are embedded
over `ℚ`, keeping them computable; every finite `f64` value is a rational.
-/

/-- Embeds `marchenko_pastur_density` (src/src/lib.rs:130-145).
`if ratio <= 0.0 || lambda <= 0.0 { return 0.0 }`, then
`gamma = ratio.min(1.0/ratio)`, support bounds, zero outside support,
else the square-root formula. -/
noncomputable def marchenko_pastur_density (lambda ratio sigma_sq : ℝ) : ℝ :=
  if ratio ≤ 0 ∨ lambda ≤ 0 then 0
  else
    if lambda < sigma_sq * (1 - Real.sqrt (min ratio (1 / ratio))) ^ 2 ∨
       lambda > sigma_sq * (1 + Real.sqrt (min ratio (1 / ratio))) ^ 2 then 0
    else
      Real.sqrt ((sigma_sq * (1 + Real.sqrt (min ratio (1 / ratio))) ^ 2 - lambda) *
          (lambda - sigma_sq * (1 - Real.sqrt (min ratio (1 / ratio))) ^ 2)) /
        (2 * Real.pi * sigma_sq * min ratio (1 / ratio) * lambda)

/-- Embeds `marchenko_pastur_support` (src/src/lib.rs:157-162). -/
noncomputable def marchenko_pastur_support (ratio sigma_sq : ℝ) : ℝ × ℝ :=
  (sigma_sq * (1 - Real.sqrt (min ratio (1 / ratio))) ^ 2,
   sigma_sq * (1 + Real.sqrt (min ratio (1 / ratio))) ^ 2)

/-- Embeds `wigner_semicircle_density` (src/src/lib.rs:186-193):
`r = 2σ`; zero if `|λ| > r`, else `(2/(π r²))·√(r² − λ²)`. -/
noncomputable def wigner_semicircle_density (lambda sigma : ℝ) : ℝ :=
  if |lambda| > 2 * sigma then 0
  else (2 / (Real.pi * (2 * sigma) * (2 * sigma))) *
    Real.sqrt ((2 * sigma) * (2 * sigma) - lambda * lambda)

/-- Index into the stream of normal draws used by `sample_goe` for the
off-diagonal pair `(i, j)` with `i < j`: the `n` diagonal draws come first,
then the pairs in row-major order `(0,1), (0,2), …, (0,n-1), (1,2), …`;
`i * (2n - i - 1) / 2` pairs precede row `i` and `j - i - 1` precede `(i,j)`
within it. -/
def goeDrawIndex (n i j : ℕ) : ℕ :=
  n + i * (2 * n - i - 1) / 2 + (j - i - 1)

/-- Embeds `sample_goe` (src/src/lib.rs:230-252) with the random source made
explicit as a stream `draws : ℕ → ℝ` of standard-normal values, consumed in
program order.  Diagonal entry `i` is draw `i` scaled by `√2`; off-diagonal
entry `(i,j)` with `i < j` is the single draw `goeDrawIndex n i j`, mirrored
to `(j,i)`; the whole matrix is divided by `√n`. -/
noncomputable def sample_goe (n : ℕ) (draws : ℕ → ℝ) :
    Matrix (Fin n) (Fin n) ℝ := fun i j =>
  (if (i : ℕ) = j then draws i * Real.sqrt 2
   else if (i : ℕ) < j then draws (goeDrawIndex n i j)
   else draws (goeDrawIndex n j i)) / Real.sqrt n

/-- Embeds `level_spacing_ratios` (src/src/lib.rs:266-284): empty for fewer
than 3 elements; otherwise for each `i` in `0..n-2`, spacings
`s1 = λ[i+1]−λ[i]`, `s2 = λ[i+2]−λ[i+1]`; if both strictly positive, emit
`min(s1,s2)/max(s1,s2)`, else skip. -/
def level_spacing_ratios (eigenvalues : List ℚ) : List ℚ :=
  if eigenvalues.length < 3 then []
  else
    (List.range (eigenvalues.length - 2)).filterMap fun i =>
      let s1 := eigenvalues.getD (i + 1) 0 - eigenvalues.getD i 0
      let s2 := eigenvalues.getD (i + 2) 0 - eigenvalues.getD (i + 1) 0
      if 0 < s1 ∧ 0 < s2 then some (min s1 s2 / max s1 s2) else none

/-- Embeds `mean_spacing_ratio` (src/src/lib.rs:290-296): 0 when the ratio
list is empty, else its arithmetic mean. -/
def mean_spacing_ratio (eigenvalues : List ℚ) : ℚ :=
  if (level_spacing_ratios eigenvalues).isEmpty then 0
  else (level_spacing_ratios eigenvalues).sum /
    ((level_spacing_ratios eigenvalues).length : ℚ)

/-- The fold `eigenvalues.iter().cloned().fold(f64::INFINITY, f64::min)` of
src/src/lib.rs:313, on the nonempty lists it is applied to: the least
element (the `+∞` identity never survives a nonempty fold). -/
def listMin : List ℚ → ℚ
  | [] => 0
  | x :: xs => xs.foldl min x

/-- The fold with `f64::max` of src/src/lib.rs:314, on nonempty lists. -/
def listMax : List ℚ → ℚ
  | [] => 0
  | x :: xs => xs.foldl max x

/-- The bin index computed at src/src/lib.rs:324-325:
`((ev - min) / bin_width).floor() as usize` then `.min(bins - 1)`.
`Nat.floor` is `0` on negatives, matching the saturating `as usize` cast. -/
def binIndex (mn bin_width : ℚ) (bins : ℕ) (ev : ℚ) : ℕ :=
  min (Nat.floor ((ev - mn) / bin_width)) (bins - 1)

/-- The per-bin counts of src/src/lib.rs:321-327: the imperative
`counts[idx] += 1` loop becomes, for each bin `b`, the number of
eigenvalues whose clamped bin index is `b`. -/
def espCounts (l : List ℚ) (bins : ℕ) : List ℕ :=
  (List.range bins).map fun b =>
    (l.map (binIndex (listMin l) ((listMax l - listMin l) / (bins : ℚ)) bins)).count b

/-- Embeds `empirical_spectral_density` (src/src/lib.rs:308-339).
Empty input or `bins == 0` gives `([], [])`; range below `1e-10` gives
`([min], [1.0])`; otherwise centers `min + (i + 0.5)·bin_width` and
densities `count / (n·bin_width)` with `bin_width = (max − min)/bins`. -/
def empirical_spectral_density (eigenvalues : List ℚ) (bins : ℕ) :
    List ℚ × List ℚ :=
  if eigenvalues.isEmpty ∨ bins = 0 then ([], [])
  else if |listMax eigenvalues - listMin eigenvalues| < 1 / 10 ^ 10 then
    ([listMin eigenvalues], [1])
  else
    ((List.range bins).map fun (i : ℕ) =>
        listMin eigenvalues +
          ((i : ℚ) + 1 / 2) * ((listMax eigenvalues - listMin eigenvalues) / (bins : ℚ)),
     (espCounts eigenvalues bins).map fun (c : ℕ) =>
        (c : ℚ) /
          ((eigenvalues.length : ℚ) *
            ((listMax eigenvalues - listMin eigenvalues) / (bins : ℚ))))

/-! ## Helper lemmas -/

/-- A ratio `min a b / max a b` of two positive numbers lies in `(0, 1]`. -/
lemma ratio_mem_Ioc {a b : ℚ} (ha : 0 < a) (hb : 0 < b) :
    0 < min a b / max a b ∧ min a b / max a b ≤ 1 := by
  have hmin : 0 < min a b := lt_min ha hb
  have hmax : 0 < max a b := lt_of_lt_of_le hmin min_le_max
  exact ⟨div_pos hmin hmax, (div_le_one hmax).2 min_le_max⟩

/-- Every emitted level-spacing ratio lies in `(0, 1]`. -/
lemma level_spacing_ratios_mem {l : List ℚ} {r : ℚ}
    (hr : r ∈ level_spacing_ratios l) : 0 < r ∧ r ≤ 1 := by
  unfold level_spacing_ratios at hr
  split at hr
  · simp at hr
  · obtain ⟨i, -, hi⟩ := List.mem_filterMap.1 hr
    dsimp only at hi
    split at hi
    · rename_i hc
      obtain rfl : _ = r := Option.some.inj hi
      exact ratio_mem_Ioc hc.1 hc.2
    · exact absurd hi (by simp)

/-- A sum over `List.range` equals the corresponding `Finset.range` sum. -/
lemma list_sum_range {M : Type} [AddCommMonoid M] (f : ℕ → M) (n : ℕ) :
    ((List.range n).map f).sum = ∑ i ∈ Finset.range n, f i := by
  induction n with
  | zero => simp
  | succ k ih =>
      rw [List.range_succ, List.map_append, List.sum_append, Finset.sum_range_succ, ih]
      simp

/-- Summing the per-value occurrence counts over all bins recovers the list
length, provided every value lands in a bin. -/
lemma sum_count_range (L : List ℕ) (bins : ℕ) (h : ∀ x ∈ L, x < bins) :
    ∑ b ∈ Finset.range bins, L.count b = L.length := by
  induction L with
  | nil => simp
  | cons x t ih =>
      have hx : x ∈ Finset.range bins := Finset.mem_range.2 (h x (List.mem_cons_self _ _))
      have ht := ih fun y hy => h y (List.mem_cons_of_mem _ hy)
      simp only [List.count_cons, beq_iff_eq]
      rw [Finset.sum_add_distrib, ht, Finset.sum_ite_eq (Finset.range bins) x fun _ => 1]
      simp [hx, List.length_cons]

/-- The clamped bin index is always below the bin count. -/
lemma binIndex_lt {bins : ℕ} (hb : bins ≠ 0) (mn bw ev : ℚ) :
    binIndex mn bw bins ev < bins :=
  lt_of_le_of_lt (min_le_right _ _) (Nat.sub_lt (Nat.pos_of_ne_zero hb) one_pos)

/-! ## Claim theorems -/

/-- Claim C1: for `λ > 0`, `γ > 0` and any `σ²`, with
`γ_eff = min(γ, 1/γ)` and support bounds `λ± = σ²(1 ± √γ_eff)²`, if
`λ ∈ [λ₋, λ₊]` then `marchenko_pastur_density` returns
`√((λ₊ − λ)(λ − λ₋)) / (2π·σ²·γ_eff·λ)`. -/
theorem mp_density_in_support (lambda ratio sigma_sq : ℝ)
    (hr : 0 < ratio) (hl : 0 < lambda)
    (hlo : sigma_sq * (1 - Real.sqrt (min ratio (1 / ratio))) ^ 2 ≤ lambda)
    (hhi : lambda ≤ sigma_sq * (1 + Real.sqrt (min ratio (1 / ratio))) ^ 2) :
    marchenko_pastur_density lambda ratio sigma_sq =
      Real.sqrt ((sigma_sq * (1 + Real.sqrt (min ratio (1 / ratio))) ^ 2 - lambda) *
          (lambda - sigma_sq * (1 - Real.sqrt (min ratio (1 / ratio))) ^ 2)) /
        (2 * Real.pi * sigma_sq * min ratio (1 / ratio) * lambda) := by
  unfold marchenko_pastur_density
  rw [if_neg (by push_neg; exact ⟨hr, hl⟩), if_neg (by push_neg; exact ⟨hlo, hhi⟩)]

/-- Witness for C1 at `λ = 1`, `γ = 1`, `σ² = 1`. -/
theorem mp_density_in_support_witness :
    marchenko_pastur_density 1 1 1 =
      Real.sqrt ((1 * (1 + Real.sqrt (min 1 (1 / 1))) ^ 2 - 1) *
          (1 - 1 * (1 - Real.sqrt (min 1 (1 / 1))) ^ 2)) /
        (2 * Real.pi * 1 * min 1 (1 / 1) * 1) :=
  mp_density_in_support 1 1 1 (by norm_num) (by norm_num)
    (by norm_num [Real.sqrt_one]) (by norm_num [Real.sqrt_one])

/-- Claim C2: `marchenko_pastur_density` returns 0 (never an error) whenever
`γ ≤ 0` or `λ ≤ 0`, and, for `γ > 0`, whenever `λ` lies outside the open
interval between the bounds returned by `marchenko_pastur_support` (in
particular strictly outside it); the function is total. -/
theorem mp_density_zero_outside (lambda ratio sigma_sq : ℝ) :
    (ratio ≤ 0 ∨ lambda ≤ 0 → marchenko_pastur_density lambda ratio sigma_sq = 0) ∧
    (0 < ratio →
      lambda ≤ (marchenko_pastur_support ratio sigma_sq).1 ∨
        (marchenko_pastur_support ratio sigma_sq).2 ≤ lambda →
      marchenko_pastur_density lambda ratio sigma_sq = 0) := by
  constructor
  · intro h
    unfold marchenko_pastur_density
    rw [if_pos h]
  · intro hr hout
    unfold marchenko_pastur_support at hout
    unfold marchenko_pastur_density
    rcases le_or_lt lambda 0 with hl | hl
    · rw [if_pos (Or.inr hl)]
    · rw [if_neg (by push_neg; exact ⟨hr, hl⟩)]
      by_cases hin :
          lambda < sigma_sq * (1 - Real.sqrt (min ratio (1 / ratio))) ^ 2 ∨
          lambda > sigma_sq * (1 + Real.sqrt (min ratio (1 / ratio))) ^ 2
      · rw [if_pos hin]
      · rw [if_neg hin]
        push_neg at hin
        rcases hout with h | h
        · have heq : lambda = sigma_sq * (1 - Real.sqrt (min ratio (1 / ratio))) ^ 2 :=
            le_antisymm h hin.1
          rw [heq]
          simp
        · have heq : lambda = sigma_sq * (1 + Real.sqrt (min ratio (1 / ratio))) ^ 2 :=
            le_antisymm hin.2 h
          rw [heq]
          simp

/-- Witness for C2 at `λ = 5` (above the support `[0, 4]` for `γ = σ² = 1`)
and at `λ = −1 ≤ 0`. -/
theorem mp_density_zero_outside_witness :
    marchenko_pastur_density 5 1 1 = 0 ∧ marchenko_pastur_density (-1) 1 1 = 0 :=
  ⟨(mp_density_zero_outside 5 1 1).2 (by norm_num)
      (Or.inr (by norm_num [marchenko_pastur_support, Real.sqrt_one])),
   (mp_density_zero_outside (-1) 1 1).1 (Or.inr (by norm_num))⟩

/-- Claim C3: `wigner_semicircle_density(λ, σ)` is 0 when `|λ| > 2σ`,
otherwise `(2/(π R²))·√(R² − λ²)` with `R = 2σ`; at `λ = 0` (for `σ > 0`)
it evaluates to `1/(πσ)`. -/
theorem wigner_semicircle_spec (lambda sigma : ℝ) :
    (2 * sigma < |lambda| → wigner_semicircle_density lambda sigma = 0) ∧
    (|lambda| ≤ 2 * sigma → wigner_semicircle_density lambda sigma =
      2 / (Real.pi * (2 * sigma) * (2 * sigma)) *
        Real.sqrt ((2 * sigma) * (2 * sigma) - lambda * lambda)) ∧
    (0 < sigma → wigner_semicircle_density 0 sigma = 1 / (Real.pi * sigma)) := by
  refine ⟨fun h => ?_, fun h => ?_, fun hs => ?_⟩
  · unfold wigner_semicircle_density
    rw [if_pos h]
  · unfold wigner_semicircle_density
    rw [if_neg (not_lt.2 h)]
  · unfold wigner_semicircle_density
    rw [if_neg (by rw [abs_zero]; push_neg; linarith)]
    have h4 : (2 * sigma) * (2 * sigma) - 0 * 0 = (2 * sigma) ^ 2 := by ring
    rw [h4, Real.sqrt_sq (by linarith)]
    have hpi := Real.pi_ne_zero
    field_simp
    ring

/-- Witness for C3 at `λ = 3, σ = 1` (outside) and `λ = 0, σ = 1`
(calibration point). -/
theorem wigner_semicircle_spec_witness :
    wigner_semicircle_density 3 1 = 0 ∧
    wigner_semicircle_density 0 1 = 1 / (Real.pi * 1) :=
  ⟨(wigner_semicircle_spec 3 1).1 (by norm_num),
   (wigner_semicircle_spec 0 1).2.2 (by norm_num)⟩

/-- Claim C4: for `γ > 0`, `marchenko_pastur_support(γ, σ²)` equals
`marchenko_pastur_support(1/γ, σ²)` — the fold-over invariant under
swapping `p` and `n`. -/
theorem mp_support_symm (ratio sigma_sq : ℝ) (h : 0 < ratio) :
    marchenko_pastur_support ratio sigma_sq =
      marchenko_pastur_support (1 / ratio) sigma_sq := by
  unfold marchenko_pastur_support
  rw [one_div_one_div, min_comm]

/-- Witness for C4 at `γ = 2`, `σ² = 1`. -/
theorem mp_support_symm_witness :
    marchenko_pastur_support 2 1 = marchenko_pastur_support (1 / 2) 1 :=
  mp_support_symm 2 1 (by norm_num)

/-- Claim C5: for every `n` and every stream of draws, `sample_goe n` is
exactly symmetric: the entry at `(i, j)` equals the entry at `(j, i)`, since
each unordered off-diagonal pair is filled from exactly one draw mirrored to
both positions before the scaling by `1/√n`. -/
theorem sample_goe_symm (n : ℕ) (draws : ℕ → ℝ) (i j : Fin n) :
    sample_goe n draws i j = sample_goe n draws j i := by
  unfold sample_goe
  rcases lt_trichotomy (i : ℕ) (j : ℕ) with h | h | h
  · rw [if_neg (by omega), if_pos h, if_neg (by omega), if_neg (by omega)]
  · rw [if_pos h, if_pos h.symm, h]
  · rw [if_neg (by omega), if_neg (by omega), if_neg (by omega), if_pos h]

/-- Claim C6: every value emitted by `level_spacing_ratios` lies in `(0, 1]`
(indices with a non-positive spacing are skipped), and the result is empty
whenever the input has fewer than 3 elements. -/
theorem level_spacing_ratios_spec (l : List ℚ) :
    (∀ r ∈ level_spacing_ratios l, 0 < r ∧ r ≤ 1) ∧
    (l.length < 3 → level_spacing_ratios l = []) := by
  refine ⟨fun r hr => level_spacing_ratios_mem hr, fun h => ?_⟩
  unfold level_spacing_ratios
  rw [if_pos h]

/-- Witness for C6: the ratio `1/2` emitted on `[1, 2, 4]` lies in `(0, 1]`,
and a 2-element input yields the empty list. -/
theorem level_spacing_ratios_spec_witness :
    (0 < (1 : ℚ) / 2 ∧ (1 : ℚ) / 2 ≤ 1) ∧ level_spacing_ratios [1, 2] = [] :=
  ⟨(level_spacing_ratios_spec [1, 2, 4]).1 ((1 : ℚ) / 2)
      (by norm_num [level_spacing_ratios, List.range_succ]),
   (level_spacing_ratios_spec [1, 2]).2 (by norm_num)⟩

/-- Claim C7: for nonempty input with range at least `1e-10` and
`bins ≥ 1`, `empirical_spectral_density` returns exactly `bins` centers and
`bins` densities, and `Σ densityᵢ · bin_width = 1` exactly (the source's
`≈ 1` is exact in ideal arithmetic), `bin_width = (max − min)/bins`. -/
theorem esp_normalized (l : List ℚ) (bins : ℕ)
    (hne : l ≠ []) (hb : bins ≠ 0)
    (hrange : 1 / 10 ^ 10 ≤ listMax l - listMin l) :
    (empirical_spectral_density l bins).1.length = bins ∧
    (empirical_spectral_density l bins).2.length = bins ∧
    ((empirical_spectral_density l bins).2.map
        (fun d => d * ((listMax l - listMin l) / (bins : ℚ)))).sum = 1 := by
  have h1 : ¬(l.isEmpty ∨ bins = 0) := by simp [hne, hb]
  have hru : (0 : ℚ) < listMax l - listMin l := lt_of_lt_of_le (by norm_num) hrange
  have h2 : ¬(|listMax l - listMin l| < 1 / 10 ^ 10) := by
    rw [abs_of_pos hru]; exact not_lt.2 hrange
  have hbins : (0 : ℚ) < (bins : ℚ) := by exact_mod_cast Nat.pos_of_ne_zero hb
  have hbw : (0 : ℚ) < (listMax l - listMin l) / (bins : ℚ) := div_pos hru hbins
  have hn : (0 : ℚ) < (l.length : ℚ) := by exact_mod_cast List.length_pos.2 hne
  unfold empirical_spectral_density
  rw [if_neg h1, if_neg h2]
  refine ⟨by simp, by simp [espCounts], ?_⟩
  dsimp only
  unfold espCounts
  rw [List.map_map, List.map_map, list_sum_range]
  simp only [Function.comp_apply]
  trans (∑ b ∈ Finset.range bins,
    ((l.map (binIndex (listMin l) ((listMax l - listMin l) / (bins : ℚ)) bins)).count b : ℚ) /
      (l.length : ℚ))
  · refine Finset.sum_congr rfl fun b _ => ?_
    field_simp
    ring
  · rw [← Finset.sum_div, ← Nat.cast_sum]
    rw [sum_count_range _ bins fun x hx => by
      obtain ⟨ev, -, rfl⟩ := List.mem_map.1 hx
      exact binIndex_lt hb _ _ _]
    rw [List.length_map]
    exact div_self hn.ne'

/-- Witness for C7 on `[0, 1/2, 1]` with 2 bins. -/
theorem esp_normalized_witness :
    (empirical_spectral_density [0, 1/2, 1] 2).1.length = 2 ∧
    (empirical_spectral_density [0, 1/2, 1] 2).2.length = 2 ∧
    ((empirical_spectral_density [0, 1/2, 1] 2).2.map
        (fun d => d * ((listMax [0, 1/2, 1] - listMin [0, 1/2, 1]) / ((2 : ℕ) : ℚ)))).sum = 1 :=
  esp_normalized [0, 1/2, 1] 2 (by simp) (by norm_num)
    (by norm_num [listMax, listMin, max_def, min_def])

/-- Claim C8: `empirical_spectral_density` returns `([], [])` for empty
input or `bins = 0`, and (for nonempty input and `bins ≥ 1`) the
single-point result `([min], [1.0])` when the range is below `1e-10`,
always as a total function with no division by a zero bin width. -/
theorem esp_degenerate (l : List ℚ) (bins : ℕ) :
    (l = [] ∨ bins = 0 → empirical_spectral_density l bins = ([], [])) ∧
    (l ≠ [] → bins ≠ 0 → |listMax l - listMin l| < 1 / 10 ^ 10 →
      empirical_spectral_density l bins = ([listMin l], [1])) := by
  constructor
  · intro h
    unfold empirical_spectral_density
    rw [if_pos (by simpa using h)]
  · intro h1 h2 h3
    unfold empirical_spectral_density
    rw [if_neg (by simp [h1, h2]), if_pos h3]

/-- Witness for C8 on the empty list and on the all-equal list `[2, 2]`. -/
theorem esp_degenerate_witness :
    empirical_spectral_density [] 3 = ([], []) ∧
    empirical_spectral_density [2, 2] 3 = ([listMin [2, 2]], [1]) :=
  ⟨(esp_degenerate [] 3).1 (Or.inl rfl),
   (esp_degenerate [2, 2] 3).2 (by simp) (by norm_num)
      (by norm_num [listMax, listMin])⟩

/-- Claim C9: in `empirical_spectral_density`, for nonempty input with range
at least `1e-10` and `bins ≥ 1`, the clamped bin index of every eigenvalue
lies in `[0, bins − 1]`, and a value exactly equal to the maximum is counted
in the last bin (index `bins − 1`), never an out-of-range `bins`-th bin. -/
theorem esp_bin_index_range (l : List ℚ) (bins : ℕ)
    (hne : l ≠ []) (hb : bins ≠ 0)
    (hrange : 1 / 10 ^ 10 ≤ listMax l - listMin l) :
    (∀ ev ∈ l,
      binIndex (listMin l) ((listMax l - listMin l) / (bins : ℚ)) bins ev ≤ bins - 1) ∧
    binIndex (listMin l) ((listMax l - listMin l) / (bins : ℚ)) bins (listMax l) =
      bins - 1 := by
  have hru : (0 : ℚ) < listMax l - listMin l := lt_of_lt_of_le (by norm_num) hrange
  have hbins : (0 : ℚ) < (bins : ℚ) := by exact_mod_cast Nat.pos_of_ne_zero hb
  constructor
  · intro ev _
    exact min_le_right _ _
  · unfold binIndex
    have key : (listMax l - listMin l) / ((listMax l - listMin l) / (bins : ℚ)) =
        (bins : ℚ) := by
      field_simp
    rw [key, Nat.floor_natCast]
    exact min_eq_right (Nat.sub_le _ _)

/-- Witness for C9 on `[0, 1/2, 1]` with 2 bins: the maximum `1` lands in
bin `1 = bins − 1`. -/
theorem esp_bin_index_range_witness :
    binIndex (listMin [0, 1/2, 1])
        ((listMax [0, 1/2, 1] - listMin [0, 1/2, 1]) / ((2 : ℕ) : ℚ)) 2
        (listMax [0, 1/2, 1]) = 2 - 1 :=
  (esp_bin_index_range [0, 1/2, 1] 2 (by simp) (by norm_num)
      (by norm_num [listMax, listMin, max_def, min_def])).2

/-- Claim C10: for every input, `mean_spacing_ratio` lies in `[0, 1]`; it is
0 exactly when `level_spacing_ratios` of the input is empty, and otherwise
it is the arithmetic mean of values in `(0, 1]`. -/
theorem mean_spacing_ratio_spec (l : List ℚ) :
    0 ≤ mean_spacing_ratio l ∧ mean_spacing_ratio l ≤ 1 ∧
      (mean_spacing_ratio l = 0 ↔ level_spacing_ratios l = []) := by
  unfold mean_spacing_ratio
  by_cases he : (level_spacing_ratios l).isEmpty
  · rw [if_pos he]
    rw [List.isEmpty_iff] at he
    simp [he]
  · rw [if_neg he]
    rw [List.isEmpty_iff] at he
    have hlen : (0 : ℚ) < ((level_spacing_ratios l).length : ℚ) := by
      exact_mod_cast List.length_pos.2 he
    have hsum : 0 < (level_spacing_ratios l).sum :=
      List.sum_pos _ (fun r hr => (level_spacing_ratios_mem hr).1) he
    have hle : (level_spacing_ratios l).sum ≤ ((level_spacing_ratios l).length : ℚ) := by
      have := List.sum_le_card_nsmul (level_spacing_ratios l) 1
        (fun r hr => (level_spacing_ratios_mem hr).2)
      simpa using this
    refine ⟨div_nonneg hsum.le hlen.le, (div_le_one hlen).2 hle, ?_⟩
    simp only [he, iff_false]
    exact (div_pos hsum hlen).ne'
